import Mathlib

/-!
Verification of the docstring-auditor program (`docstring_auditor/main.py`)
against its specification.

The embedding models the program's text processing over `List Char`
(Python strings are sequences of characters; every operation used by the
program — slicing, substring search, `str.replace` — is character-based).

The parser front end (`ast.parse` together with `ast.get_source_segment`)
is modelled abstractly: a parsed file is its character content plus a
syntax tree whose nodes carry the character-offset spans that
`ast.get_source_segment` slices out.  CPython assigns to a (possibly
decorated) `def`/`class` statement a location that begins at the
`def`/`class` keyword itself; the decorator lines above it lie strictly
before that location and are carried separately in the `deco` field.
-/

namespace DocstringAuditor
/-- One statement of a parsed Python module, as seen by `ast` node tests
`isinstance(node, ast.FunctionDef)` / `isinstance(node, ast.ClassDef)`.
`start`/`stop` delimit the half-open character span `[start, stop)` that
`ast.get_source_segment` returns for the node; `deco` is the span of the
decorator lines directly above the definition, when present (CPython keeps
decorators outside the node's own segment).  Any other statement kind
(imports, assignments, `async def`, expressions, ...) is `other`. -/
inductive Stmt where
  | funcDef (name : List Char) (deco : Option (Nat × Nat)) (start stop : Nat)
      (body : List Stmt)
  | classDef (name : List Char) (deco : Option (Nat × Nat)) (start stop : Nat)
      (body : List Stmt)
  | other

/-- Model of `ast.get_source_segment(content, node)`: the slice `content[a:b]`. -/
def seg (content : List Char) (a b : Nat) : List Char :=
  (content.drop a).take (b - a)

/-- Pass 1 of `extract_code_block` (main.py lines 45-48): keep a top-level
`FunctionDef` or `ClassDef` whose name passes the filter and slice its
source segment. -/
def pass1Seg (content code_block_name : List Char) : Stmt → Option (List Char)
  | Stmt.funcDef nm _ a b _ =>
      if code_block_name = [] ∨ nm = code_block_name then some (seg content a b) else none
  | Stmt.classDef nm _ a b _ =>
      if code_block_name = [] ∨ nm = code_block_name then some (seg content a b) else none
  | Stmt.other => none

/-- The body list of a `ClassDef`, as selected by
`[node for node in tree.body if isinstance(node, ast.ClassDef)]` (line 50). -/
def classBody : Stmt → Option (List Stmt)
  | Stmt.classDef _ _ _ _ body => some body
  | _ => none

/-- Pass 2 of `extract_code_block` (lines 50-53): keep an immediate
`FunctionDef` of a class body whose name passes the filter and slice its
source segment. -/
def methodSeg (content code_block_name : List Char) : Stmt → Option (List Char)
  | Stmt.funcDef nm _ a b _ =>
      if code_block_name = [] ∨ nm = code_block_name then some (seg content a b) else none
  | _ => none

/-- The function `extract_code_block` (main.py lines 14-55), given the already-read file
`content` and its parse `tree`: pass 1 over top-level definitions, then
pass 2 over each class's immediate methods. -/
def extract_code_block (content : List Char) (tree : List Stmt)
    (code_block_name : List Char) : List (List Char) :=
  tree.filterMap (pass1Seg content code_block_name) ++
    (tree.filterMap classBody).flatMap
      (fun body => body.filterMap (methodSeg content code_block_name))

/-- Is the statement a top-level definition (`FunctionDef` or `ClassDef`)? -/
def isTopDef : Stmt → Bool
  | Stmt.funcDef .. => true
  | Stmt.classDef .. => true
  | Stmt.other => false

/-- Is the statement a `FunctionDef`? -/
def isFuncDef : Stmt → Bool
  | Stmt.funcDef .. => true
  | _ => false

/-- The source segment of a definition node (junk `[]` on `other`). -/
def defSeg (content : List Char) : Stmt → List Char
  | Stmt.funcDef _ _ a b _ => seg content a b
  | Stmt.classDef _ _ a b _ => seg content a b
  | Stmt.other => []

/-- The top-level definitions of a module, in source order. -/
def topDefs (tree : List Stmt) : List Stmt :=
  tree.filter isTopDef

/-- The immediate methods of a class statement (empty for non-classes). -/
def methodsOf : Stmt → List Stmt
  | Stmt.classDef _ _ _ _ body => body.filter isFuncDef
  | _ => []

/-- N of the spec: number of top-level function/class definitions. -/
def topDefCount (tree : List Stmt) : Nat :=
  (topDefs tree).length

/-- M of the spec: total number of methods directly inside classes. -/
def methodCount (tree : List Stmt) : Nat :=
  (tree.map fun s => (methodsOf s).length).sum

/-- Erase everything nested strictly below a class's immediate members:
a method's own body, and the contents of a class nested in a class body,
are dropped. -/
def pruneInner : Stmt → Stmt
  | Stmt.funcDef nm d a b _ => Stmt.funcDef nm d a b []
  | Stmt.classDef nm d a b _ => Stmt.classDef nm d a b []
  | Stmt.other => Stmt.other

/-- Erase everything nested strictly below the two levels that extraction
examines: bodies of top-level functions, and everything below a class's
immediate member headers. -/
def pruneTop : Stmt → Stmt
  | Stmt.funcDef nm d a b _ => Stmt.funcDef nm d a b []
  | Stmt.classDef nm d a b body => Stmt.classDef nm d a b (body.map pruneInner)
  | Stmt.other => Stmt.other

/-- A definition node's span is sane for a file of length `n`
(true of every span `ast.parse` assigns to a node of the file). -/
def spanOK (n : Nat) : Stmt → Bool
  | Stmt.funcDef _ _ a b _ => decide (a ≤ b) && decide (b ≤ n)
  | Stmt.classDef _ _ a b _ => decide (a ≤ b) && decide (b ≤ n)
  | Stmt.other => true

/-- Well-formedness of a parse tree for a file of length `n`: every span
that extraction can slice (top level, and class-immediate methods) is
within bounds. -/
def WFTree (n : Nat) (tree : List Stmt) : Bool :=
  tree.all fun s => spanOK n s && (methodsOf s).all (spanOK n)

/-- Python `content.replace(old, new)`: scan left to right, replace each
leftmost non-overlapping occurrence of `old`, continue after the inserted
`new`.  (Python's special case `old = ""` never arises in this program:
`apply_solution` only calls replace with a literal that begins with three
quote characters, so it is at least six characters long.) -/
def replaceAll (old new : List Char) : List Char → List Char
  | [] => []
  | c :: rest =>
    if h : old ≠ [] ∧ old.isPrefixOf (c :: rest) then
      new ++ replaceAll old new ((c :: rest).drop old.length)
    else
      c :: replaceAll old new rest
termination_by s => s.length
decreasing_by
  · have hlen : old.length ≤ (c :: rest).length :=
      (List.isPrefixOf_iff_prefix.mp h.2).length_le
    have h1 : 1 ≤ old.length := by
      cases old with
      | nil => exact absurd rfl h.1
      | cons _ _ => exact Nat.succ_le_succ (Nat.zero_le _)
    simp only [List.length_drop]
    omega
  · simp only [List.length_cons]
    omega

/-- The character triple `"""` that delimits a docstring literal. -/
def tq : List Char := ['"', '"', '"']

/-- Index of the first occurrence of `pat` in a string, if any. -/
def findSub (pat : List Char) : List Char → Option Nat
  | [] => if pat.isPrefixOf ([] : List Char) then some 0 else none
  | c :: rest =>
    if pat.isPrefixOf (c :: rest) then some 0
    else (findSub pat rest).map (· + 1)

/-- Model of `re.search(r'""".*?"""', s, flags=re.DOTALL)`: the regex engine takes
the leftmost possible start, which is the first occurrence of `"""`, and
the lazy `.*?` makes the match end at the earliest following `"""`; if the
first `"""` has no closing `"""` three or more characters later, no later
start can have one either, so the search fails. -/
def searchDocstring (s : List Char) : Option (List Char) :=
  match findSub tq s with
  | none => none
  | some i =>
    match findSub tq (s.drop (i + 3)) with
    | none => none
    | some j => some ((s.drop i).take (j + 6))

/-- The two crash sites of `apply_solution` (main.py lines 305 and 307):
`re.search(...)` returned `None` and `.group(0)` raises `AttributeError`. -/
inductive PatchError where
  | noOldDocstring
  | noNewDocstring
deriving DecidableEq

/-- Lines 306-309 of main.py: if `new_function` contains `"""` take its
first docstring literal, otherwise treat the whole text as the literal. -/
def extractNewDocstring (new_function : List Char) : Except PatchError (List Char) :=
  if (findSub tq new_function).isSome then
    match searchDocstring new_function with
    | none => Except.error PatchError.noNewDocstring
    | some d => Except.ok d
  else Except.ok new_function

/-- The function `apply_solution` (main.py lines 281-316), with the file's current
content passed in and the written-back content returned: extract the old
docstring from `old_function` (AttributeError — modelled as an error — if
there is none), determine the new literal, and replace every occurrence of
the old literal in the whole content. -/
def apply_solution (content old_function new_function : List Char) :
    Except PatchError (List Char) :=
  match searchDocstring old_function with
  | none => Except.error PatchError.noOldDocstring
  | some old_docstring =>
    match extractNewDocstring new_function with
    | Except.error e => Except.error e
    | Except.ok new_docstring =>
      Except.ok (replaceAll old_docstring new_docstring content)

/-- The four-field critique payload parsed from the model's JSON
(`ask_for_critique`, main.py lines 229-232, shape fixed by the prompt). -/
structure Critique where
  function : List Char
  error : List Char
  warning : List Char
  solution : List Char
deriving DecidableEq

/-- The function `report_concerns` (main.py lines 235-278).  Python string truthiness:
a field counts iff it is non-empty.  The first branch is the
"no concerns found" message path; in every path the function returns
`(error_count, warning_count, solution)`, the solution field passed
through verbatim. -/
def report_concerns (r : Critique) : Nat × Nat × List Char :=
  if r.error = [] ∧ r.warning = [] then
    (0, 0, r.solution)
  else
    (if r.error = [] then 0 else 1, if r.warning = [] then 0 else 1, r.solution)

/-- An exception raised by `ask_for_critique` or `report_concerns` inside
the retry loop (transport failure, `json.loads` failure, missing dict
field), carrying its message. -/
structure CritErr where
  msg : List Char
deriving DecidableEq

/-- Attempts `i, i+1, ..., i+k` of the critique request; the last failure
is re-raised (`raise e`, main.py line 369). -/
def retryAux (attempt : Nat → Except CritErr Critique) (i : Nat) :
    Nat → Except CritErr Critique
  | 0 => attempt i
  | k + 1 =>
    match attempt i with
    | Except.ok c => Except.ok c
    | Except.error _ => retryAux attempt (i + 1) k

/-- The `for i in range(3)` retry loop of `process_file` (lines 358-369):
at most 3 attempts in total; failures on attempts with `i < 2` are retried
(after a sleep, irrelevant to the result), the third failure propagates. -/
def retryCritique (attempt : Nat → Except CritErr Critique) :
    Except CritErr Critique :=
  retryAux attempt 0 2

/-- A terminal error escaping `process_file`: a critique exception
re-raised after the retry cap, or an AttributeError from `apply_solution`. -/
inductive RunError where
  | critique (e : CritErr)
  | patch (e : PatchError)
deriving DecidableEq

/-- The per-block loop of `process_file` (main.py lines 352-374), with the
file's evolving on-disk content threaded through: for each block, run the
retried critique (its result depends on the block index `idx` via the
oracle `attempt`), tally the reported concerns, and when `auto_fix` is set
and the solution non-empty apply the patch immediately before the next
block.  Any error aborts the remaining blocks. -/
def processBlocks (attempt : Nat → Nat → Except CritErr Critique)
    (auto_fix : Bool) :
    List (List Char) → Nat → List Char → Nat → Nat →
      Except RunError (Nat × Nat × List Char)
  | [], _, content, e, w => Except.ok (e, w, content)
  | blk :: rest, idx, content, e, w =>
    match retryCritique (attempt idx) with
    | Except.error ce => Except.error (RunError.critique ce)
    | Except.ok cr =>
      let t := report_concerns cr
      if auto_fix ∧ t.2.2 ≠ [] then
        match apply_solution content blk t.2.2 with
        | Except.error pe => Except.error (RunError.patch pe)
        | Except.ok content2 =>
          processBlocks attempt auto_fix rest (idx + 1) content2 (e + t.1) (w + t.2.1)
      else
        processBlocks attempt auto_fix rest (idx + 1) content (e + t.1) (w + t.2.1)

/-- The function `process_file` (main.py lines 319-376): extract the blocks once from
the initial content, then run the per-block loop, returning the final
tally and final file content. -/
def process_file (content : List Char) (tree : List Stmt)
    (attempt : Nat → Nat → Except CritErr Critique) (auto_fix : Bool)
    (code_block_name : List Char) : Except RunError (Nat × Nat × List Char) :=
  processBlocks attempt auto_fix (extract_code_block content tree code_block_name)
    0 content 0 0

/-- The function `process_directory` (main.py lines 379-426), restricted to the walk's
resulting file list: process each file in order, accumulating the tally;
an error in any file aborts the whole run (nothing catches it). -/
def process_directory (attempt : Nat → Nat → Nat → Except CritErr Critique)
    (auto_fix : Bool) (code_block_name : List Char) :
    List (List Char × List Stmt) → Nat → Nat → Nat →
      Except RunError (Nat × Nat)
  | [], _, e, w => Except.ok (e, w)
  | (content, tree) :: rest, fi, e, w =>
    match process_file content tree (attempt fi) auto_fix code_block_name with
    | Except.error r => Except.error r
    | Except.ok (de, dw, _) =>
      process_directory attempt auto_fix code_block_name rest (fi + 1) (e + de) (w + dw)

/-- The outcome of `sys.exit`: a numeric status, or `sys.exit(error_text)`
with a message (which prints the message and exits with a failure status
distinct from every numeric `code` outcome of a completed run). -/
inductive ExitOutcome where
  | code (n : Nat)
  | messageExit (msg : List Char)
deriving DecidableEq

/-- The classification of the CLI `path` argument made by
`os.path.isfile` / `os.path.isdir` (main.py lines 498-509). -/
inductive PathKind where
  | isFile
  | isDir
  | invalid
deriving DecidableEq

/-- The final exit mapping of `docstring_auditor` (main.py lines 511-519). -/
def finalExit (error_count warning_count : Nat) (error_on_warnings : Bool) :
    ExitOutcome :=
  if 0 < error_count ∨ (error_on_warnings ∧ 0 < warning_count) then
    ExitOutcome.code
      (error_count + (if error_on_warnings then warning_count else 0))
  else
    ExitOutcome.code 0

/-- The message passed to `sys.exit` on an invalid path (main.py line 507). -/
def invalid_path_text : List Char :=
  ("Invalid path. Please provide a valid file or directory path.").toList

/-- The tail of the `docstring_auditor` command (main.py lines 498-519):
dispatch on the path kind, running the file or directory processor whose
tally is delivered by `run_file`/`run_dir`, then exit; an invalid path
exits with the error text without invoking any processing. -/
def docstring_auditor (kind : PathKind) (run_file run_dir : Unit → Nat × Nat)
    (error_on_warnings : Bool) : ExitOutcome :=
  match kind with
  | PathKind.isFile =>
    let t := run_file ()
    finalExit t.1 t.2 error_on_warnings
  | PathKind.isDir =>
    let t := run_dir ()
    finalExit t.1 t.2 error_on_warnings
  | PathKind.invalid => ExitOutcome.messageExit invalid_path_text

/-- A file content assembled as p0, d, p1, d, ..., d, pk: the literal `d`
interleaved between the parts. -/
def joinWith (sep : List Char) : List (List Char) → List Char
  | [] => []
  | [p] => p
  | p :: p2 :: ps => p ++ sep ++ joinWith sep (p2 :: ps)

/-- The interleaved occurrences of `d` in `joinWith d ps` are exactly the
leftmost ones: no part introduces an earlier overlapping occurrence, and
the final part contains none at all. -/
def SepFree (d : List Char) : List (List Char) → Prop
  | [] => True
  | [p] => ¬ d <:+: p
  | p :: p2 :: ps => ¬ d <:+: (p ++ d.dropLast) ∧ SepFree d (p2 :: ps)

/-- The start offset of a definition's own segment (0 on `other`). -/
def startOf : Stmt → Nat
  | Stmt.funcDef _ _ a _ _ => a
  | Stmt.classDef _ _ a _ _ => a
  | Stmt.other => 0

/-- The stop offset of a definition's own segment (0 on `other`). -/
def stopOf : Stmt → Nat
  | Stmt.funcDef _ _ _ b _ => b
  | Stmt.classDef _ _ _ b _ => b
  | Stmt.other => 0

/-- The decorator region of a definition, when present. -/
def decoOf : Stmt → Option (Nat × Nat)
  | Stmt.funcDef _ d _ _ _ => d
  | Stmt.classDef _ d _ _ _ => d
  | Stmt.other => none

/-- Decorator sanity of one node: when a definition carries a decorator
region, that region ends at or before the definition's own span start
(CPython: the location of a decorated `def`/`class` begins at the keyword
line, below its decorators). -/
def decoOK : Stmt → Bool
  | Stmt.funcDef _ (some (u, v)) a _ _ => decide (u ≤ v) && decide (v ≤ a)
  | Stmt.classDef _ (some (u, v)) a _ _ => decide (u ≤ v) && decide (v ≤ a)
  | _ => true

/-- Decorator sanity of every node extraction can reach. -/
def DecoWF (tree : List Stmt) : Bool :=
  tree.all fun s => decoOK s && (methodsOf s).all decoOK

/-- Splicing the slice `[a, b)` back between its surroundings reproduces
the file. -/
theorem seg_round_trip (c : List Char) (a b : Nat) (h1 : a ≤ b) :
    c.take a ++ seg c a b ++ c.drop b = c := by
  have hseg : seg c a b = (c.take b).drop a := by
    rw [seg, List.drop_take]
  have htake : (c.take b).take a = c.take a := by
    rw [List.take_take, Nat.min_eq_left h1]
  calc c.take a ++ seg c a b ++ c.drop b
      = ((c.take b).take a ++ (c.take b).drop a) ++ c.drop b := by
        rw [hseg, htake]
    _ = c.take b ++ c.drop b := by rw [List.take_append_drop]
    _ = c := List.take_append_drop ..

/-- Inversion of pass 1: a yielded block is a source segment, whose span is
in bounds whenever the node's span is. -/
theorem pass1Seg_some {content nmf blk : List Char} {s : Stmt}
    (h : pass1Seg content nmf s = some blk) :
    ∃ a b, blk = seg content a b ∧ ∀ n, spanOK n s = true → a ≤ b ∧ b ≤ n := by
  cases s with
  | funcDef nm d a b body =>
    rw [pass1Seg] at h
    split at h
    · refine ⟨a, b, (Option.some.inj h).symm, fun n hn => ?_⟩
      simpa [spanOK] using hn
    · exact Option.noConfusion h
  | classDef nm d a b body =>
    rw [pass1Seg] at h
    split at h
    · refine ⟨a, b, (Option.some.inj h).symm, fun n hn => ?_⟩
      simpa [spanOK] using hn
    · exact Option.noConfusion h
  | other => exact Option.noConfusion h

/-- Inversion of pass 2: a yielded method block comes from a `FunctionDef`
and is a source segment with an in-bounds span. -/
theorem methodSeg_some {content nmf blk : List Char} {m : Stmt}
    (h : methodSeg content nmf m = some blk) :
    isFuncDef m = true ∧
      ∃ a b, blk = seg content a b ∧ ∀ n, spanOK n m = true → a ≤ b ∧ b ≤ n := by
  cases m with
  | funcDef nm d a b body =>
    rw [methodSeg] at h
    split at h
    · refine ⟨rfl, a, b, (Option.some.inj h).symm, fun n hn => ?_⟩
      simpa [spanOK] using hn
    · exact Option.noConfusion h
  | classDef nm d a b body => exact Option.noConfusion h
  | other => exact Option.noConfusion h

/-- A class body recovered by pass 2 determines the class's method list. -/
theorem classBody_some {s : Stmt} {body : List Stmt} (h : classBody s = some body) :
    methodsOf s = body.filter isFuncDef := by
  cases s with
  | classDef nm d a b b2 => rw [methodsOf]; rw [Option.some.inj h]
  | funcDef nm d a b b2 => exact Option.noConfusion h
  | other => exact Option.noConfusion h

/-- C1: every block yielded by extraction from a well-formed parse is an
exact verbatim slice of the file's content, and splicing the block back
into its span reproduces the file byte-for-byte. -/
theorem extract_round_trip (content : List Char) (tree : List Stmt)
    (code_block_name blk : List Char)
    (hwf : WFTree content.length tree = true)
    (hblk : blk ∈ extract_code_block content tree code_block_name) :
    ∃ a b, a ≤ b ∧ b ≤ content.length ∧ blk = seg content a b ∧
      content.take a ++ blk ++ content.drop b = content := by
  have hwf' := List.all_eq_true.mp hwf
  rcases List.mem_append.mp hblk with h | h
  · rcases List.mem_filterMap.mp h with ⟨s, hs, hmatch⟩
    obtain ⟨a, b, rfl, hsp⟩ := pass1Seg_some hmatch
    have h1 := hwf' s hs
    rw [Bool.and_eq_true] at h1
    obtain ⟨hab, hbn⟩ := hsp content.length h1.1
    exact ⟨a, b, hab, hbn, rfl, seg_round_trip content a b hab⟩
  · rcases List.mem_flatMap.mp h with ⟨body, hbody, hm⟩
    rcases List.mem_filterMap.mp hbody with ⟨s, hs, hcb⟩
    rcases List.mem_filterMap.mp hm with ⟨m, hmb, hmatch⟩
    obtain ⟨hfn, a, b, rfl, hsp⟩ := methodSeg_some hmatch
    have hmem : m ∈ methodsOf s := by
      rw [classBody_some hcb]
      exact List.mem_filter.mpr ⟨hmb, hfn⟩
    have h1 := hwf' s hs
    rw [Bool.and_eq_true] at h1
    have h2 := List.all_eq_true.mp h1.2 m hmem
    obtain ⟨hab, hbn⟩ := hsp content.length h2
    exact ⟨a, b, hab, hbn, rfl, seg_round_trip content a b hab⟩

/-- With no name filter, pass 1 yields exactly the top-level definitions'
segments, in source order. -/
theorem pass1Seg_empty_func (content nm : List Char) (d : Option (Nat × Nat))
    (a b : Nat) (body : List Stmt) :
    pass1Seg content [] (Stmt.funcDef nm d a b body) = some (seg content a b) := by
  rw [pass1Seg, if_pos (Or.inl rfl)]

theorem pass1Seg_empty_class (content nm : List Char) (d : Option (Nat × Nat))
    (a b : Nat) (body : List Stmt) :
    pass1Seg content [] (Stmt.classDef nm d a b body) = some (seg content a b) := by
  rw [pass1Seg, if_pos (Or.inl rfl)]

theorem methodSeg_empty_func (content nm : List Char) (d : Option (Nat × Nat))
    (a b : Nat) (body : List Stmt) :
    methodSeg content [] (Stmt.funcDef nm d a b body) = some (seg content a b) := by
  rw [methodSeg, if_pos (Or.inl rfl)]

theorem filterMap_pass1_empty (content : List Char) (tree : List Stmt) :
    tree.filterMap (pass1Seg content []) = (topDefs tree).map (defSeg content) := by
  induction tree with
  | nil => rfl
  | cons s rest ih =>
    cases s with
    | funcDef nm d a b body =>
      rw [List.filterMap_cons_some (pass1Seg_empty_func content nm d a b body)]
      rw [topDefs, List.filter_cons]
      simp only [isTopDef, if_true]
      rw [List.map_cons, ih, topDefs]
      rfl
    | classDef nm d a b body =>
      rw [List.filterMap_cons_some (pass1Seg_empty_class content nm d a b body)]
      rw [topDefs, List.filter_cons]
      simp only [isTopDef, if_true]
      rw [List.map_cons, ih, topDefs]
      rfl
    | other =>
      rw [List.filterMap_cons_none]
      · rw [topDefs, List.filter_cons]
        simp only [isTopDef, if_false, Bool.false_eq_true]
        rw [ih, topDefs]
      · rfl

/-- With no name filter, pass 2 on one class body yields exactly the
immediate methods' segments, in source order. -/
theorem filterMap_method_empty (content : List Char) (body : List Stmt) :
    body.filterMap (methodSeg content []) = (body.filter isFuncDef).map (defSeg content) := by
  induction body with
  | nil => rfl
  | cons m rest ih =>
    cases m with
    | funcDef nm d a b mb =>
      rw [List.filterMap_cons_some (methodSeg_empty_func content nm d a b mb)]
      rw [List.filter_cons]
      simp only [isFuncDef, if_true]
      rw [List.map_cons, ih]
      rfl
    | classDef nm d a b mb =>
      rw [List.filterMap_cons_none rfl, List.filter_cons]
      simp only [isFuncDef, if_false, Bool.false_eq_true]
      exact ih
    | other =>
      rw [List.filterMap_cons_none rfl, List.filter_cons]
      simp only [isFuncDef, if_false, Bool.false_eq_true]
      exact ih

/-- With no name filter, pass 2 yields the classes' methods grouped by
class, classes in source order. -/
theorem pass2_flatMap (content : List Char) (tree : List Stmt) :
    (tree.filterMap classBody).flatMap
        (fun body => body.filterMap (methodSeg content [])) =
      tree.flatMap (fun s => (methodsOf s).map (defSeg content)) := by
  induction tree with
  | nil => rfl
  | cons s rest ih =>
    rw [List.flatMap_cons]
    cases s with
    | funcDef nm d a b body =>
      rw [List.filterMap_cons_none rfl, ih]
      rfl
    | classDef nm d a b body =>
      rw [List.filterMap_cons_some
        (show classBody (Stmt.classDef nm d a b body) = some body from rfl),
        List.flatMap_cons, ih, filterMap_method_empty]
      rfl
    | other =>
      rw [List.filterMap_cons_none rfl, ih]
      rfl

/-- Pass 1 reads only a definition's name and span, so erasing everything
below the top level changes nothing. -/
theorem pass1Seg_pruneTop (content nmf : List Char) (s : Stmt) :
    pass1Seg content nmf (pruneTop s) = pass1Seg content nmf s := by
  cases s <;> rfl

/-- Pass 2 reads only a method's name and span, so erasing a method's own
body changes nothing. -/
theorem methodSeg_pruneInner (content nmf : List Char) (m : Stmt) :
    methodSeg content nmf (pruneInner m) = methodSeg content nmf m := by
  cases m <;> rfl

/-- Extraction never looks below the two levels it slices: a tree with all
function bodies (and anything below class members) erased extracts to the
same blocks.  In particular functions nested inside functions or methods
are never extracted, whatever the name filter. -/
theorem extract_pruneTop (content nmf : List Char) (tree : List Stmt) :
    extract_code_block content (tree.map pruneTop) nmf =
      extract_code_block content tree nmf := by
  rw [extract_code_block, extract_code_block]
  congr 1
  · rw [List.filterMap_map]
    congr 1
    funext s
    exact pass1Seg_pruneTop content nmf s
  · induction tree with
    | nil => rfl
    | cons s rest ih =>
      rw [List.map_cons]
      cases s with
      | funcDef nm d a b body =>
        rw [List.filterMap_cons_none rfl, List.filterMap_cons_none rfl, ih]
      | classDef nm d a b body =>
        rw [List.filterMap_cons_some
          (show classBody (pruneTop (Stmt.classDef nm d a b body)) =
            some (body.map pruneInner) from rfl),
          List.filterMap_cons_some
          (show classBody (Stmt.classDef nm d a b body) = some body from rfl),
          List.flatMap_cons, List.flatMap_cons, ih]
        congr 1
        rw [List.filterMap_map]
        congr 1
        funext m
        exact methodSeg_pruneInner content nmf m
      | other =>
        rw [List.filterMap_cons_none rfl, List.filterMap_cons_none rfl, ih]

/-- C3: with no name filter, extraction of a file with N top-level
definitions and M methods directly inside classes yields exactly N + M
blocks, ordered as all top-level definitions in source order followed by
the methods grouped by class in source order; and nothing nested below
those two levels (in particular no function nested inside a function) is
ever extracted. -/
theorem extraction_count_order (content : List Char) (tree : List Stmt) :
    (extract_code_block content tree []).length = topDefCount tree + methodCount tree
    ∧ extract_code_block content tree [] =
        (topDefs tree).map (defSeg content) ++
          tree.flatMap (fun s => (methodsOf s).map (defSeg content))
    ∧ ∀ nmf, extract_code_block content (tree.map pruneTop) nmf =
        extract_code_block content tree nmf := by
  have horder : extract_code_block content tree [] =
      (topDefs tree).map (defSeg content) ++
        tree.flatMap (fun s => (methodsOf s).map (defSeg content)) := by
    rw [extract_code_block, filterMap_pass1_empty, pass2_flatMap]
  refine ⟨?_, horder, fun nmf => extract_pruneTop content nmf tree⟩
  rw [horder, List.length_append, List.length_map, List.length_flatMap]
  rw [topDefCount, methodCount]
  congr 3
  funext s
  simp only [Function.comp_apply, List.length_map]

theorem replaceAll_nil (old new : List Char) : replaceAll old new [] = [] := by
  rw [replaceAll]

theorem replaceAll_cons_pos (old new : List Char) (c : Char) (rest : List Char)
    (h : old ≠ [] ∧ old.isPrefixOf (c :: rest)) :
    replaceAll old new (c :: rest) =
      new ++ replaceAll old new ((c :: rest).drop old.length) := by
  rw [replaceAll, dif_pos h]

theorem replaceAll_cons_neg (old new : List Char) (c : Char) (rest : List Char)
    (h : ¬(old ≠ [] ∧ old.isPrefixOf (c :: rest))) :
    replaceAll old new (c :: rest) = c :: replaceAll old new rest := by
  rw [replaceAll, dif_neg h]

/-- Bounded-length form of: replacing a literal by itself is the identity. -/
theorem replaceAll_self_aux (d : List Char) :
    ∀ fuel s, s.length ≤ fuel → replaceAll d d s = s := by
  intro fuel
  induction fuel with
  | zero =>
    intro s hs
    rw [List.eq_nil_of_length_eq_zero (Nat.le_zero.mp hs)]
    exact replaceAll_nil d d
  | succ fuel ih =>
    intro s hs
    cases s with
    | nil => exact replaceAll_nil d d
    | cons c rest =>
      by_cases h : d ≠ [] ∧ d.isPrefixOf (c :: rest)
      · rw [replaceAll_cons_pos d d c rest h]
        obtain ⟨t, ht⟩ := List.isPrefixOf_iff_prefix.mp h.2
        have hd1 : 1 ≤ d.length := by
          cases hd : d with
          | nil => exact absurd hd h.1
          | cons _ _ => simp
        have hlt : t.length ≤ fuel := by
          have := congrArg List.length ht
          simp only [List.length_append, List.length_cons] at this hs
          omega
        rw [← ht, List.drop_left, ih t hlt]
      · rw [replaceAll_cons_neg d d c rest h]
        have : rest.length ≤ fuel := by
          simp only [List.length_cons] at hs
          omega
        rw [ih rest this]

/-- Python `s.replace(d, d) == s`: replacing a literal by itself is the identity. -/
theorem replaceAll_self (d s : List Char) : replaceAll d d s = s :=
  replaceAll_self_aux d s.length s (Nat.le_refl _)

/-- If the literal does not occur in the string, `str.replace` returns the
string unchanged. -/
theorem replaceAll_not_occurs (d n : List Char) :
    ∀ s, ¬ d <:+: s → replaceAll d n s = s := by
  intro s
  induction s with
  | nil => intro _; exact replaceAll_nil d n
  | cons c rest ih =>
    intro hocc
    by_cases h : d ≠ [] ∧ d.isPrefixOf (c :: rest)
    · exact absurd (List.IsPrefix.isInfix (List.isPrefixOf_iff_prefix.mp h.2)) hocc
    · rw [replaceAll_cons_neg d n c rest h]
      rw [ih fun hin => hocc (List.infix_cons hin)]

/-- If a prefix of `x ++ d ++ y` equals `d` and `x` is nonempty, then `d`
occurs inside `x ++ d.dropLast` (the occurrence cannot use the last
character of the explicit `d`). -/
theorem infix_of_prefix_shift {d y : List Char} (c : Char) (x' : List Char)
    (hne : d ≠ []) (hpre : d <+: c :: (x' ++ (d ++ y))) :
    d <:+: (c :: x') ++ d.dropLast := by
  obtain ⟨d0, lc, hd⟩ : ∃ d0 lc, d = d0 ++ [lc] :=
    ⟨d.dropLast, d.getLast hne, (List.dropLast_append_getLast hne).symm⟩
  have hdrop : d.dropLast = d0 := by rw [hd, List.dropLast_concat]
  have hw : c :: (x' ++ (d ++ y)) = ((c :: x') ++ d0) ++ ([lc] ++ y) := by
    rw [hd]; simp
  have hlen : d.length ≤ ((c :: x') ++ d0).length := by
    rw [hd]
    simp only [List.length_append, List.length_cons, List.length_nil]
    omega
  have heq : d = ((c :: x') ++ d0).take d.length := by
    have h2 := List.prefix_iff_eq_take.mp hpre
    rw [hw, List.take_append_eq_append_take, Nat.sub_eq_zero_of_le hlen,
      List.take_zero, List.append_nil] at h2
    exact h2
  rw [hdrop]
  exact List.IsPrefix.isInfix (List.prefix_iff_eq_take.mpr heq)

/-- Leftmost-step characterisation of `str.replace`: if the explicit
occurrence of `d` after `x` is the leftmost one, it is replaced and the
scan continues after it. -/
theorem replaceAll_step (d n y : List Char) :
    ∀ x, ¬ d <:+: (x ++ d.dropLast) →
      replaceAll d n (x ++ d ++ y) = x ++ n ++ replaceAll d n y := by
  intro x
  induction x with
  | nil =>
    intro hocc
    have hne : d ≠ [] := by
      intro hd
      rw [hd] at hocc
      exact hocc List.nil_infix
    cases hd : d with
    | nil => exact absurd hd hne
    | cons c0 d0 =>
      rw [← hd]
      show replaceAll d n (d ++ y) = [] ++ n ++ replaceAll d n y
      have hpre : d.isPrefixOf (d ++ y) :=
        List.isPrefixOf_iff_prefix.mpr ⟨y, rfl⟩
      have hsh : d ++ y = c0 :: (d0 ++ y) := by rw [hd]; rfl
      rw [hsh] at hpre ⊢
      rw [replaceAll_cons_pos d n c0 (d0 ++ y) ⟨hne, hpre⟩]
      rw [← hsh, List.drop_left]
      rfl
  | cons c x' ih =>
    intro hocc
    have hstep : (c :: x') ++ d ++ y = c :: (x' ++ (d ++ y)) := by simp
    rw [hstep]
    have hneg : ¬(d ≠ [] ∧ d.isPrefixOf (c :: (x' ++ (d ++ y)))) := by
      rintro ⟨hne, hpre⟩
      exact hocc (infix_of_prefix_shift c x' hne (List.isPrefixOf_iff_prefix.mp hpre))
    rw [replaceAll_cons_neg d n c (x' ++ (d ++ y)) hneg]
    have hih : ¬ d <:+: (x' ++ d.dropLast) := by
      intro hin
      exact hocc (List.infix_cons hin)
    rw [← List.append_assoc, ih hih]
    simp

/-- If the docstring search succeeded, the `'"""' in s` test succeeds. -/
theorem findSub_isSome_of_search {s d : List Char}
    (h : searchDocstring s = some d) : (findSub tq s).isSome = true := by
  cases hf : findSub tq s with
  | none =>
    rw [searchDocstring, hf] at h
    exact Option.noConfusion h
  | some i => rfl

/-- On a text that contains a docstring, the new-literal determination of
`apply_solution` returns that docstring. -/
theorem extractNewDocstring_of_search {s d : List Char}
    (h : searchDocstring s = some d) :
    extractNewDocstring s = Except.ok d := by
  rw [extractNewDocstring, if_pos (findSub_isSome_of_search h), h]

/-- C9: a patch operation whose new text equals its old text writes the
file back with content byte-identical to what it read. -/
theorem patch_self_identity (content old updated : List Char)
    (h : apply_solution content old old = Except.ok updated) :
    updated = content := by
  cases hs : searchDocstring old with
  | none =>
    rw [apply_solution, hs] at h
    exact Except.noConfusion h
  | some d =>
    rw [apply_solution, hs] at h
    rw [extractNewDocstring_of_search hs] at h
    have h2 := Except.ok.inj h
    rw [← h2, replaceAll_self]

/-- Witness for C9 at a concrete file and block. -/
theorem patch_self_identity_witness :
    replaceAll ("\"\"\"D\"\"\"".toList) ("\"\"\"D\"\"\"".toList)
        ("x = 1\n\"\"\"D\"\"\"\ny = 2".toList) = ("x = 1\n\"\"\"D\"\"\"\ny = 2".toList) :=
  patch_self_identity ("x = 1\n\"\"\"D\"\"\"\ny = 2".toList)
    ("def f():\n    \"\"\"D\"\"\"".toList) _ rfl

/-- C10: when the old block does contain a docstring literal but that
literal occurs nowhere in the file's current content, `apply_solution`
raises nothing and rewrites the file with byte-identical content — a
silent no-op with no signal to the caller. -/
theorem patch_missing_target_noop (content old new d n : List Char)
    (h1 : searchDocstring old = some d)
    (h2 : extractNewDocstring new = Except.ok n)
    (h3 : ¬ d <:+: content) :
    apply_solution content old new = Except.ok content := by
  rw [apply_solution, h1, h2]
  show Except.ok (replaceAll d n content) = Except.ok content
  rw [replaceAll_not_occurs d n content h3]

/-- Witness for C10: the old block's docstring `"""D"""` is absent from
the file `print(1)`, and the patch succeeds returning the file unchanged. -/
theorem patch_missing_target_noop_witness :
    apply_solution ("print(1)".toList) ("def f():\n    \"\"\"D\"\"\"".toList)
        ("\"\"\"N\"\"\"".toList) = Except.ok ("print(1)".toList) :=
  patch_missing_target_noop ("print(1)".toList)
    ("def f():\n    \"\"\"D\"\"\"".toList) ("\"\"\"N\"\"\"".toList)
    ("\"\"\"D\"\"\"".toList) ("\"\"\"N\"\"\"".toList)
    (by decide) rfl (by decide)

/-- Python `str.replace` rewrites every interleaved occurrence of the old
literal, left to right. -/
theorem replaceAll_joinWith (d n : List Char) :
    ∀ ps, SepFree d ps → replaceAll d n (joinWith d ps) = joinWith n ps := by
  intro ps
  induction ps with
  | nil => intro _; exact replaceAll_nil d n
  | cons p ps ih =>
    cases ps with
    | nil => intro h; exact replaceAll_not_occurs d n p h
    | cons p2 ps2 =>
      intro h
      rw [joinWith, joinWith]
      rw [replaceAll_step d n (joinWith d (p2 :: ps2)) p h.1, ih h.2]

/-- C2: when the old docstring literal `d` occurs in the file content
(content = p0 d p1 d ... d pk, each occurrence leftmost in turn),
`apply_solution` succeeds and replaces every occurrence — including the
ones outside the originating block — with the new literal, per Python
`str.replace` semantics, and the full updated content is returned to be
written back. -/
theorem patch_replaces_all_occurrences (ps : List (List Char))
    (old new d n : List Char)
    (h1 : searchDocstring old = some d)
    (h2 : extractNewDocstring new = Except.ok n)
    (hps : SepFree d ps) :
    apply_solution (joinWith d ps) old new = Except.ok (joinWith n ps) := by
  rw [apply_solution, h1, h2]
  show Except.ok (replaceAll d n (joinWith d ps)) = Except.ok (joinWith n ps)
  rw [replaceAll_joinWith d n ps hps]

/-- Witness for C2: the docstring `"""D"""` occurs twice in the file, the
second occurrence outside the originating block; both become `"""N"""`. -/
theorem patch_replaces_all_occurrences_witness :
    apply_solution
        (joinWith ("\"\"\"D\"\"\"".toList)
          ["def f():\n    ".toList, "\n\ndef g():\n    ".toList, "\n".toList])
        ("def f():\n    \"\"\"D\"\"\"".toList)
        ("def f():\n    \"\"\"N\"\"\"".toList) =
      Except.ok
        (joinWith ("\"\"\"N\"\"\"".toList)
          ["def f():\n    ".toList, "\n\ndef g():\n    ".toList, "\n".toList]) :=
  patch_replaces_all_occurrences
    ["def f():\n    ".toList, "\n\ndef g():\n    ".toList, "\n".toList]
    ("def f():\n    \"\"\"D\"\"\"".toList)
    ("def f():\n    \"\"\"N\"\"\"".toList)
    ("\"\"\"D\"\"\"".toList) ("\"\"\"N\"\"\"".toList)
    (by decide) rfl ⟨by decide, by decide, by simp only [SepFree]; decide⟩

/-- C5: a patch whose old block text contains no triple-quoted docstring
literal fails (the unguarded `.group(0)` on `None`, modelled as
`noOldDocstring`), nothing is written, and inside the auto-fix loop this
failure propagates out of block processing instead of being skipped. -/
theorem patch_docstringless_fails :
    (∀ content old new, searchDocstring old = none →
        apply_solution content old new =
          Except.error PatchError.noOldDocstring)
    ∧ (∀ attempt blk rest (idx : Nat) content (e w : Nat) cr,
        retryCritique (attempt idx) = Except.ok cr →
        (report_concerns cr).2.2 ≠ [] →
        searchDocstring blk = none →
        processBlocks attempt true (blk :: rest) idx content e w =
          Except.error (RunError.patch PatchError.noOldDocstring)) := by
  constructor
  · intro content old new h
    rw [apply_solution, h]
  · intro attempt blk rest idx content e w cr hok hsol hblk
    have hpatch : apply_solution content blk (report_concerns cr).2.2 =
        Except.error PatchError.noOldDocstring := by
      rw [apply_solution, hblk]
    rw [processBlocks, hok]
    simp only [if_pos (And.intro trivial hsol), hpatch]

/-- Witness for C5: a one-block run where the critique succeeds with a
non-empty solution but the block (a docstring-less `def`) has no literal to
replace: the run aborts with the patch error. -/
theorem patch_docstringless_fails_witness :
    processBlocks
        (fun _ _ => Except.ok (Critique.mk ['f'] ['e'] [] ['s'])) true
        ["def f():\n    pass".toList] 0 ("def f():\n    pass".toList) 0 0 =
      Except.error (RunError.patch PatchError.noOldDocstring) :=
  patch_docstringless_fails.2
    (fun _ _ => Except.ok (Critique.mk ['f'] ['e'] [] ['s']))
    ("def f():\n    pass".toList) [] 0 ("def f():\n    pass".toList) 0 0
    (Critique.mk ['f'] ['e'] [] ['s']) rfl (by decide) (by decide)

/-- C7: the critique of a block is attempted at most 3 times in total (the
loop's result depends only on attempts 0, 1, 2); failing twice and
succeeding on the third attempt gives the same result as succeeding on the
first; failing all three attempts re-raises the last error, which aborts
the remaining blocks of the file and the remaining files of the run. -/
theorem retry_three_attempts :
    (∀ o o' : Nat → Except CritErr Critique,
        (∀ j, j < 3 → o j = o' j) → retryCritique o = retryCritique o')
    ∧ (∀ (o : Nat → Except CritErr Critique) e0 e1 c,
        o 0 = Except.error e0 → o 1 = Except.error e1 → o 2 = Except.ok c →
        retryCritique o = Except.ok c ∧
          retryCritique (fun _ => Except.ok c) = Except.ok c)
    ∧ (∀ (o : Nat → Except CritErr Critique) e0 e1 e2,
        o 0 = Except.error e0 → o 1 = Except.error e1 →
        o 2 = Except.error e2 → retryCritique o = Except.error e2)
    ∧ (∀ attempt (auto_fix : Bool) blk rest (idx : Nat) content (e w : Nat) ce,
        retryCritique (attempt idx) = Except.error ce →
        processBlocks attempt auto_fix (blk :: rest) idx content e w =
          Except.error (RunError.critique ce))
    ∧ (∀ attempt (auto_fix : Bool) nmf content tree rest (fi e w : Nat) r,
        process_file content tree (attempt fi) auto_fix nmf = Except.error r →
        process_directory attempt auto_fix nmf ((content, tree) :: rest) fi e w =
          Except.error r) := by
  refine ⟨?_, ?_, ?_, ?_, ?_⟩
  · intro o o' h
    have h0 := h 0 (by omega)
    have h1 := h 1 (by omega)
    have h2 := h 2 (by omega)
    simp only [retryCritique, retryAux]
    rw [h0, h1, h2]
  · intro o e0 e1 c h0 h1 h2
    constructor
    · simp only [retryCritique, retryAux]
      rw [h0, h1, h2]
    · rfl
  · intro o e0 e1 e2 h0 h1 h2
    simp only [retryCritique, retryAux]
    rw [h0, h1, h2]
  · intro attempt auto_fix blk rest idx content e w ce h
    rw [processBlocks, h]
  · intro attempt auto_fix nmf content tree rest fi e w r h
    rw [process_directory, h]

/-- Witness for C7: an oracle failing on attempts 0 and 1 and succeeding on
attempt 2 yields the same successful result as an oracle succeeding
immediately. -/
theorem retry_three_attempts_witness :
    retryCritique (fun j => if j = 2 then Except.ok (Critique.mk [] [] [] [])
        else Except.error (CritErr.mk [])) =
      Except.ok (Critique.mk [] [] [] []) ∧
    retryCritique (fun _ => Except.ok (Critique.mk [] [] [] [])) =
      Except.ok (Critique.mk [] [] [] []) :=
  retry_three_attempts.2.1
    (fun j => if j = 2 then Except.ok (Critique.mk [] [] [] [])
      else Except.error (CritErr.mk []))
    (CritErr.mk []) (CritErr.mk []) (Critique.mk [] [] [] []) rfl rfl rfl

/-- C8: on a completed run the exit status is 0 when there are no errors
and (no warnings or the flag is unset), and otherwise
`error_count + (warning_count if --error-on-warnings else 0)`, matching
each concrete case of the spec; an invalid path exits via
`sys.exit(error_text)` — an outcome independent of any processing and
distinct from every numeric exit of a completed run. -/
theorem exit_code_mapping :
    (∀ (e w : Nat) (f : Bool), e = 0 ∧ (w = 0 ∨ f = false) →
        finalExit e w f = ExitOutcome.code 0)
    ∧ (∀ (e w : Nat) (f : Bool), ¬(e = 0 ∧ (w = 0 ∨ f = false)) →
        finalExit e w f =
          ExitOutcome.code (e + (if f then w else 0)))
    ∧ finalExit 0 0 false = ExitOutcome.code 0
    ∧ finalExit 1 0 false = ExitOutcome.code 1
    ∧ finalExit 1 0 true = ExitOutcome.code 1
    ∧ finalExit 0 1 false = ExitOutcome.code 0
    ∧ finalExit 0 1 true = ExitOutcome.code 1
    ∧ finalExit 1 1 true = ExitOutcome.code 2
    ∧ (∀ rf rf' rd rd' : Unit → Nat × Nat, ∀ f : Bool,
        docstring_auditor PathKind.invalid rf rd f =
          docstring_auditor PathKind.invalid rf' rd' f)
    ∧ (∀ (rf rd : Unit → Nat × Nat) (f : Bool) (n : Nat),
        docstring_auditor PathKind.invalid rf rd f ≠ ExitOutcome.code n) := by
  refine ⟨?_, ?_, by decide, by decide, by decide, by decide, by decide, by decide,
    fun rf rf' rd rd' f => rfl, fun rf rd f n h => ExitOutcome.noConfusion h⟩
  · rintro e w f ⟨rfl, hw⟩
    rcases hw with rfl | rfl
    · rw [finalExit, if_neg (by simp)]
    · rw [finalExit, if_neg (by simp)]
  · intro e w f h
    by_cases he : e = 0
    · subst he
      have hw : ¬(w = 0 ∨ f = false) := fun hc => h ⟨rfl, hc⟩
      have hw1 : w ≠ 0 := fun hc => hw (Or.inl hc)
      have hf : f = true := by
        cases f
        · exact absurd (Or.inr rfl) hw
        · rfl
      subst hf
      rw [finalExit, if_pos (Or.inr ⟨rfl, Nat.pos_of_ne_zero hw1⟩)]
    · rw [finalExit, if_pos (Or.inl (Nat.pos_of_ne_zero he))]

/-- C4 counterexample: a critique with empty error, empty warning and a
non-empty solution is reported as (0, 0, solution), not (0, 0, "") — the
solution text is returned even when there are no concerns. -/
theorem report_concerns_empty_cex :
    report_concerns (Critique.mk ['f'] [] [] ['s']) = (0, 0, (['s'] : List Char))
    ∧ report_concerns (Critique.mk ['f'] [] [] ['s']) ≠
        (0, 0, ([] : List Char)) := by
  decide

/-- C4 (amended): `report_concerns` returns error_count 1 iff the error
field is non-empty and warning_count 1 iff the warning field is non-empty
(so (1,0), (0,1), (1,1) for the mixed cases), and the solution text is
passed through verbatim in every case — with both fields empty the result
is (0, 0, solution), which is (0, 0, "") only when the solution itself is
empty. -/
theorem report_concerns_tally (r : Critique) :
    ((report_concerns r).1 = if r.error = [] then 0 else 1)
    ∧ ((report_concerns r).2.1 = if r.warning = [] then 0 else 1)
    ∧ (report_concerns r).2.2 = r.solution := by
  by_cases he : r.error = []
  · by_cases hw : r.warning = []
    · rw [report_concerns, if_pos ⟨he, hw⟩, if_pos he, if_pos hw]
      exact ⟨rfl, rfl, rfl⟩
    · rw [report_concerns, if_neg (fun hc => hw hc.2)]
      exact ⟨rfl, rfl, rfl⟩
  · rw [report_concerns, if_neg (fun hc => he hc.1)]
    exact ⟨rfl, rfl, rfl⟩

/-- Witness for C8: errors=0, warnings=1 with the flag unset exits 0;
errors=1, warnings=1 with the flag set exits 2. -/
theorem exit_code_mapping_witness :
    finalExit 0 1 false = ExitOutcome.code 0 ∧
      finalExit 1 1 true = ExitOutcome.code 2 :=
  ⟨exit_code_mapping.1 0 1 false ⟨rfl, Or.inr rfl⟩,
    exit_code_mapping.2.1 1 1 true (by decide)⟩

/-- Witness for C1 at a concrete one-function file: the single extracted
block splices back to reproduce the file. -/
theorem extract_round_trip_witness :
    ∃ a b, a ≤ b ∧ b ≤ ("def f():\n    pass".toList).length ∧
      "def f():\n    pass".toList = seg ("def f():\n    pass".toList) a b ∧
      ("def f():\n    pass".toList).take a ++ "def f():\n    pass".toList ++
        ("def f():\n    pass".toList).drop b = "def f():\n    pass".toList :=
  extract_round_trip ("def f():\n    pass".toList)
    [Stmt.funcDef ['f'] none 0 17 []] [] ("def f():\n    pass".toList)
    (by decide) (by decide)

theorem decoOK_spec {s : Stmt} (h : decoOK s = true) :
    ∀ u v, decoOf s = some (u, v) → v ≤ startOf s := by
  intro u v hd
  cases s with
  | funcDef nm dd a b body =>
    cases dd with
    | none => exact Option.noConfusion hd
    | some p =>
      obtain ⟨u', v'⟩ := p
      rw [decoOf] at hd
      obtain ⟨rfl, rfl⟩ : u' = u ∧ v' = v := Prod.mk.injEq .. ▸ Option.some.inj hd
      rw [decoOK, Bool.and_eq_true, decide_eq_true_eq, decide_eq_true_eq] at h
      exact h.2
  | classDef nm dd a b body =>
    cases dd with
    | none => exact Option.noConfusion hd
    | some p =>
      obtain ⟨u', v'⟩ := p
      rw [decoOf] at hd
      obtain ⟨rfl, rfl⟩ : u' = u ∧ v' = v := Prod.mk.injEq .. ▸ Option.some.inj hd
      rw [decoOK, Bool.and_eq_true, decide_eq_true_eq, decide_eq_true_eq] at h
      exact h.2
  | other => exact Option.noConfusion hd

/-- Inversion of pass 1, node form: the yielded block is the node's own
segment. -/
theorem pass1Seg_some_node {content nmf blk : List Char} {s : Stmt}
    (h : pass1Seg content nmf s = some blk) :
    isTopDef s = true ∧ blk = seg content (startOf s) (stopOf s) := by
  cases s with
  | funcDef nm d a b body =>
    rw [pass1Seg] at h
    split at h
    · exact ⟨rfl, (Option.some.inj h).symm⟩
    · exact Option.noConfusion h
  | classDef nm d a b body =>
    rw [pass1Seg] at h
    split at h
    · exact ⟨rfl, (Option.some.inj h).symm⟩
    · exact Option.noConfusion h
  | other => exact Option.noConfusion h

/-- Inversion of pass 2, node form. -/
theorem methodSeg_some_node {content nmf blk : List Char} {m : Stmt}
    (h : methodSeg content nmf m = some blk) :
    isFuncDef m = true ∧ blk = seg content (startOf m) (stopOf m) := by
  cases m with
  | funcDef nm d a b body =>
    rw [methodSeg] at h
    split at h
    · exact ⟨rfl, (Option.some.inj h).symm⟩
    · exact Option.noConfusion h
  | classDef nm d a b body => exact Option.noConfusion h
  | other => exact Option.noConfusion h

/-- C6 (amended): an extracted block never includes the decorator lines of
its definition: every block is the slice of the file at its node's own
span, and for a decorated node the decorator region ends at or before that
span's start, so the block draws no character from it. -/
theorem extract_excludes_decorators (content : List Char) (tree : List Stmt)
    (nmf blk : List Char) (hdeco : DecoWF tree = true)
    (hblk : blk ∈ extract_code_block content tree nmf) :
    ∃ s, (s ∈ topDefs tree ∨ ∃ cls ∈ tree, s ∈ methodsOf cls) ∧
      blk = seg content (startOf s) (stopOf s) ∧
      ∀ u v, decoOf s = some (u, v) → v ≤ startOf s := by
  have hd' := List.all_eq_true.mp hdeco
  rcases List.mem_append.mp hblk with h | h
  · rcases List.mem_filterMap.mp h with ⟨s, hs, hmatch⟩
    obtain ⟨htd, hseg⟩ := pass1Seg_some_node hmatch
    have h1 := hd' s hs
    rw [Bool.and_eq_true] at h1
    exact ⟨s, Or.inl (List.mem_filter.mpr ⟨hs, htd⟩), hseg, decoOK_spec h1.1⟩
  · rcases List.mem_flatMap.mp h with ⟨body, hbody, hm⟩
    rcases List.mem_filterMap.mp hbody with ⟨s, hs, hcb⟩
    rcases List.mem_filterMap.mp hm with ⟨m, hmb, hmatch⟩
    obtain ⟨hfn, hseg⟩ := methodSeg_some_node hmatch
    have hmem : m ∈ methodsOf s := by
      rw [classBody_some hcb]
      exact List.mem_filter.mpr ⟨hmb, hfn⟩
    have h1 := hd' s hs
    rw [Bool.and_eq_true] at h1
    have h2 := List.all_eq_true.mp h1.2 m hmem
    exact ⟨m, Or.inr ⟨s, hs, hmem⟩, hseg, decoOK_spec h2⟩

/-- C6 counterexample: for the decorated file `"@dec\ndef f():\n    pass\n"`
(CPython's `FunctionDef` location starts at offset 5, the `def` keyword;
the decorator text `"@dec"` occupies offsets 0-4), extraction yields the
single block `"def f():\n    pass"`, which does not contain the decorator
line — refuting the claim that decorator lines are part of the block. -/
theorem extract_decorator_cex :
    extract_code_block ("@dec\ndef f():\n    pass\n".toList)
        [Stmt.funcDef ['f'] (some (0, 4)) 5 22 []] [] =
      ["def f():\n    pass".toList] ∧
      ¬("@dec".toList <:+: "def f():\n    pass".toList) := by
  decide

/-- Witness for the amended C6 at the decorated file above: the block is
the node's own slice and the decorator region `[0, 4)` ends at or before
its start offset 5. -/
theorem extract_excludes_decorators_witness :
    ∃ s, (s ∈ topDefs [Stmt.funcDef ['f'] (some (0, 4)) 5 22 []] ∨
        ∃ cls ∈ [Stmt.funcDef ['f'] (some (0, 4)) 5 22 []], s ∈ methodsOf cls) ∧
      "def f():\n    pass".toList =
        seg ("@dec\ndef f():\n    pass\n".toList) (startOf s) (stopOf s) ∧
      ∀ u v, decoOf s = some (u, v) → v ≤ startOf s :=
  extract_excludes_decorators ("@dec\ndef f():\n    pass\n".toList)
    [Stmt.funcDef ['f'] (some (0, 4)) 5 22 []] []
    ("def f():\n    pass".toList) (by decide) (by decide)

end DocstringAuditor
